import Mathlib

/-!
Verification of `pubproxpy` (`src/pubproxpy/fetcher.py`).

Shallow embedding of the `ProxyFetcher` class: parameter validation and
translation (`_verify_params`, `_rename_params`, `_format_params`,
`_setup_params`), the buffered dispensing algorithm (`get`, `drain`),
the rate-limit pacing in `_fetch`, and the response/error handling in
`_fetch`.  Python dicts are modelled as association lists with unique
keys, Python sets as lists up to membership, timestamps as integers.
The helper modules `types.py`, `errors.py` and `_constants.py` are not
part of the sources; the few pieces of them that the claims need
(the two closed enumerations, the upstream error table, the delay
constant) are modelled from the spec and marked as such.
-/

namespace Pubproxpy

/-- A proxy is an "ip:port" string (`types.Proxy`). -/
abbrev Proxy := String

/-- Modelled from the spec: the closed anonymity-level enumeration
(`types.Level`, absent from src/); the test suite shows member `ELITE`
with wire value `"elite"`. -/
inductive Level
  | anonymous
  | elite
deriving DecidableEq

/-- Modelled from the spec: the closed protocol enumeration
(`types.Protocol`, absent from src/); the test suite shows member `HTTP`
with wire value `"http"`. -/
inductive Protocol
  | http
  | socks4
  | socks5
deriving DecidableEq

/-- Wire string of a `Level` member (its `.value` in Python). -/
def Level.value : Level → String
  | .anonymous => "anonymous"
  | .elite => "elite"

/-- Wire string of a `Protocol` member (its `.value` in Python). -/
def Protocol.value : Protocol → String
  | .http => "http"
  | .socks4 => "socks4"
  | .socks5 => "socks5"

/-- A parameter value (`types.ParamTypes`): int, bool, string, list of
strings, or one of the two enumerations. -/
inductive ParamValue
  | pint (n : Int)
  | pbool (b : Bool)
  | pstr (s : String)
  | plist (l : List String)
  | plevel (l : Level)
  | pprotocol (p : Protocol)
deriving DecidableEq

/-- A Python dict of parameters, modelled as an association list with
unique keys. -/
abbrev Params := List (String × ParamValue)

/-- Dict lookup: `params[k]` / `params.get(k)`. -/
def plookup : Params → String → Option ParamValue
  | [], _ => none
  | (k, v) :: rest, key => if k = key then some v else plookup rest key

/-- Dict assignment `params[key] = v`: replace in place if the key
exists, otherwise append. -/
def dinsert (key : String) (v : ParamValue) : Params → Params
  | [] => [(key, v)]
  | (k, w) :: rest =>
      if k = key then (k, v) :: rest else (k, w) :: dinsert key v rest

/-- Dict deletion `del params[key]`. -/
def derase (key : String) (p : Params) : Params :=
  p.filter (fun kv => kv.1 ≠ key)

/-- The keys of a parameter dict. -/
def keys (p : Params) : List String := p.map Prod.fst

/-- `ProxyFetcher._PARAMS`: the recognized caller-facing option names. -/
def PARAMS : List String :=
  ["api_key", "level", "protocol", "countries", "not_countries",
   "last_checked", "port", "time_to_connect", "cookies", "google",
   "https", "post", "referer", "user_agent"]

/-- `ProxyFetcher._PARAM_BOUNDS`: inclusive bounds of the bounded
numeric options. -/
def PARAM_BOUNDS (k : String) : Option (Int × Int) :=
  if k = "last_checked" then some (1, 1000)
  else if k = "time_to_connect" then some (1, 60)
  else none

/-- The integer a value compares as in Python's `val < low or val > high`
(a Python `bool` is an `int` with `True = 1`, `False = 0`); `none` for
values whose comparison with an int raises `TypeError`. -/
def asInt : ParamValue → Option Int
  | .pint n => some n
  | .pbool b => some (if b then 1 else 0)
  | _ => none

/-- `isinstance(val, Protocol)`. -/
def isProtocolVal : ParamValue → Bool
  | .pprotocol _ => true
  | _ => false

/-- `isinstance(val, Level)`. -/
def isLevelVal : ParamValue → Bool
  | .plevel _ => true
  | _ => false

/-- The key is present but its value fails the `isinstance` check of
`_verify_params` (lines 109-115). -/
def badEnum (params : Params) (key : String) (check : ParamValue → Bool) : Bool :=
  match plookup params key with
  | some v => ! check v
  | none => false

/-- The error a `_verify_params` run raises: `ValueError` for the
explicit `raise` statements, `TypeError` for a bounds comparison against
a non-integer value. -/
inductive VErr
  | valueError
  | typeError
deriving DecidableEq

/-- The per-item loop of `_verify_params` (lines 118-132): each item's
name must be recognized, and bounded options must be within bounds. -/
def checkParamList : List (String × ParamValue) → Option VErr
  | [] => none
  | (k, v) :: rest =>
      if k ∈ PARAMS then
        match PARAM_BOUNDS k with
        | some bounds =>
            match asInt v with
            | some n =>
                if n < bounds.1 ∨ n > bounds.2 then some .valueError
                else checkParamList rest
            | none => some .typeError
        | none => checkParamList rest
      else some .valueError

/-- `ProxyFetcher._verify_params` (lines 95-132): mutual exclusion of
`countries`/`not_countries`, enum typing of `protocol`/`level`, then the
per-item name and bounds checks. -/
def verify_params (params : Params) : Option VErr :=
  if (plookup params "countries").isSome ∧ (plookup params "not_countries").isSome then
    some .valueError
  else if badEnum params "protocol" isProtocolVal then some .valueError
  else if badEnum params "level" isLevelVal then some .valueError
  else checkParamList params

/-- The translation table of `_rename_params` (lines 139-146). -/
def translations : List (String × String) :=
  [("api_key", "api"), ("protocol", "type"), ("countries", "country"),
   ("not_countries", "not_country"), ("last_checked", "last_check"),
   ("time_to_connect", "speed")]

/-- One step of `_rename_params`: `params[after] = params[before];
del params[before]` when `before` is present. -/
def rename1 (before after : String) (p : Params) : Params :=
  match plookup p before with
  | some v => derase before (dinsert after v p)
  | none => p

/-- `ProxyFetcher._rename_params` (lines 134-153). -/
def rename_params (p : Params) : Params :=
  translations.foldl (fun p t => rename1 t.1 t.2 p) p

/-- The comma-join of `_format_params` (lines 168-173): replace a
list value by the comma-joined string. -/
def joinCountry (key : String) (p : Params) : Params :=
  match plookup p key with
  | some (.plist l) => dinsert key (.pstr (String.intercalate "," l)) p
  | _ => p

/-- The enum extraction of `_format_params` (lines 176-179):
`params[key] = params[key].value`. -/
def enumValue (key : String) (p : Params) : Params :=
  match plookup p key with
  | some (.plevel l) => dinsert key (.pstr l.value) p
  | some (.pprotocol pr) => dinsert key (.pstr pr.value) p
  | _ => p

/-- `ProxyFetcher._format_params` (lines 155-181): set `format` and
`limit` (20 with an `api` credential, else 5), join country lists,
extract enum values for `level` then `type`. -/
def format_params (p : Params) : Params :=
  let p := dinsert "format" (.pstr "json") p
  let p :=
    if (plookup p "api").isSome then dinsert "limit" (.pint 20) p
    else dinsert "limit" (.pint 5) p
  let p :=
    if (plookup p "country").isSome then joinCountry "country" p
    else if (plookup p "not_country").isSome then joinCountry "not_country" p
    else p
  enumValue "type" (enumValue "level" p)

/-- `ProxyFetcher._setup_params` (lines 83-93): verify, then overwrite
`api_key` with the `PUBPROXY_API_KEY` environment value when that
variable is set (`env`), then rename and format. -/
def setup_params (env : Option String) (params : Params) : Except VErr Params :=
  match verify_params params with
  | some e => .error e
  | none =>
      let params :=
        match env with
        | some v => dinsert "api_key" (.pstr v) params
        | none => params
      .ok (format_params (rename_params params))

/-- The fields of a constructed `ProxyFetcher` that the claims use:
the exclusion flag, the finalized params, and the local buffer. -/
structure ProxyFetcherM where
  exclude_used : Bool
  params : Params
  proxies : List Proxy
deriving DecidableEq

/-- `ProxyFetcher.__init__` (lines 69-81): `_setup_params` runs
synchronously at construction and its error propagates; on success the
local buffer starts empty. -/
def init (env : Option String) (exclude_used : Bool) (params : Params) :
    Except VErr ProxyFetcherM :=
  match setup_params env params with
  | .error e => .error e
  | .ok ps => .ok ⟨exclude_used, ps, []⟩

/-- Python slice `xs[:a]` for an `int` index `a`: a non-negative `a`
takes the first `a` elements, a negative `a` drops the last `|a|`. -/
def pySliceTo (xs : List Proxy) (a : Int) : List Proxy :=
  if 0 ≤ a then xs.take a.toNat
  else xs.take ((xs.length + a).toNat)

/-- Python slice `xs[a:]` for an `int` index `a`: a non-negative `a`
drops the first `a` elements, a negative `a` keeps the last `|a|`. -/
def pySliceFrom (xs : List Proxy) (a : Int) : List Proxy :=
  if 0 ≤ a then xs.drop a.toNat
  else xs.drop ((xs.length + a).toNat)

/-- `_FetcherShared` (lines 16-31): the process-wide state shared by all
fetchers.  `reqCount` counts the upstream requests issued so far; it
indexes the upstream page stream and lets theorems speak about "no fetch
happened". -/
structure Shared where
  lastRequested : Option Int
  used : List Proxy
  reqCount : Nat
deriving DecidableEq

/-- `_FetcherShared.reset` (lines 29-31), which is also its initial
state. -/
def Shared.reset : Shared := ⟨none, [], 0⟩

/-- `used | set(temp)` up to membership: append the elements of `temp`
not already present. -/
def setUnion (used temp : List Proxy) : List Proxy :=
  used ++ temp.filter (fun p => decide (p ∉ used))

/-- The response-processing tail of `_fetch` (lines 233-239): the parsed
page is reduced to a set (`dedup`), and the shared used-set is
subtracted when the fetcher participates in exclusion. -/
def fetchProxies (excl : Bool) (page : List Proxy) (used : List Proxy) : List Proxy :=
  let ps := page.dedup
  if excl then ps.filter (fun p => decide (p ∉ used)) else ps

/-- One `self._fetch()` call as seen by `get` (success path): the
upstream page for the current request index is processed by
`fetchProxies`, `lastRequested` is stamped with the request time and the
request counter advances.  `pages n` is the `data` list of the `n`-th
upstream response, `clock n` its timestamp. -/
def fetchStep (pages : Nat → List Proxy) (clock : Nat → Int) (excl : Bool)
    (sh : Shared) : List Proxy × Shared :=
  (fetchProxies excl (pages sh.reqCount) sh.used,
   ⟨some (clock sh.reqCount), sh.used, sh.reqCount + 1⟩)

/-- The refill loop of `get` (lines 196-197): `while len(self._proxies)
< amount: self._proxies += self._fetch()`.  `fuel` bounds the number of
iterations; `none` means the loop was still running when the fuel ran
out. -/
def getLoop (pages : Nat → List Proxy) (clock : Nat → Int) (excl : Bool)
    (amount : Int) : Nat → List Proxy → Shared → Option (List Proxy × Shared)
  | 0, buf, sh => if (buf.length : Int) < amount then none else some (buf, sh)
  | fuel + 1, buf, sh =>
      if (buf.length : Int) < amount then
        let r := fetchStep pages clock excl sh
        getLoop pages clock excl amount fuel (buf ++ r.1) r.2
      else some (buf, sh)

/-- `ProxyFetcher.get` (lines 187-207): filter the buffer against the
shared used-set when exclusion is on, refill until `amount` is covered,
slice off the result, retain the remainder, and union the result into
the shared used-set when exclusion is on.  Returns the dispensed list,
the new buffer and the new shared state. -/
def get (pages : Nat → List Proxy) (clock : Nat → Int) (excl : Bool)
    (amount : Int) (fuel : Nat) (buf : List Proxy) (sh : Shared) :
    Option (List Proxy × List Proxy × Shared) :=
  let buf := if excl then buf.filter (fun p => decide (p ∉ sh.used)) else buf
  match getLoop pages clock excl amount fuel buf sh with
  | none => none
  | some (buf, sh) =>
      let temp := pySliceTo buf amount
      let rest := pySliceFrom buf amount
      let sh := if excl then { sh with used := setUnion sh.used temp } else sh
      some (temp, rest, sh)

/-- `ProxyFetcher.drain` (lines 183-185): `self.get(len(self._proxies))`. -/
def drain (pages : Nat → List Proxy) (clock : Nat → Int) (excl : Bool)
    (fuel : Nat) (buf : List Proxy) (sh : Shared) :
    Option (List Proxy × List Proxy × Shared) :=
  get pages clock excl (buf.length : Int) fuel buf sh

/-- The rate-limit pacing of `_fetch` (lines 216-220): with a recorded
`last_requested` and no `api` credential in the finalized params, a
request arriving at `now` is dispatched only after the remainder of the
delay window has been slept off; otherwise it is dispatched at `now`.
`delay` is the `REQUEST_DELAY` constant (from `_constants.py`, absent
from src/; the spec fixes it as the rate-limit window in seconds). -/
def dispatchTime (delay : Int) (params : Params) (last : Option Int) (now : Int) : Int :=
  match last with
  | some t =>
      if plookup params "api" = none ∧ now - t < delay then
        now + (delay - (now - t))
      else now
  | none => now

/-- Modelled from the spec: the typed upstream errors of `errors.py`
(absent from src/) — one per known upstream error message, plus the
generic `ProxyError` carrying the raw response text. -/
inductive ApiError
  | noProxiesLeft
  | invalidApiKey
  | rateLimited
  | proxyError (raw : String)
deriving DecidableEq

/-- Modelled from the spec: `errors.API_ERROR_MAP` (absent from src/),
the table from known plain-text upstream error messages to typed
errors; the spec names "No Proxies left", "Invalid API key" and a
quota-exceeded variant. -/
def API_ERROR_MAP (s : String) : Option ApiError :=
  if s = "No Proxies left" then some .noProxiesLeft
  else if s = "Invalid API key" then some .invalidApiKey
  else if s = "Rate limited" then some .rateLimited
  else none

/-- An upstream HTTP response as `_fetch` consumes it: the raw body
text, and the `ipPort` list under the `data` field when the body parses
as JSON (`none` models a `json.decoder.JSONDecodeError`). -/
structure HttpResp where
  text : String
  parsedData : Option (List Proxy)

/-- The response-handling part of `_fetch` (lines 222-239): stamp
`last_requested` with the post-request time `now` first; then either
raise the classified error (table hit, else generic `ProxyError` with
the raw body) or return the page as a used-filtered set. -/
def fetchFull (excl : Bool) (resp : HttpResp) (now : Int) (sh : Shared) :
    Except ApiError (List Proxy) × Shared :=
  let sh : Shared := ⟨some now, sh.used, sh.reqCount + 1⟩
  match resp.parsedData with
  | none =>
      (.error (match API_ERROR_MAP resp.text with
               | some e => e
               | none => .proxyError resp.text), sh)
  | some data => (.ok (fetchProxies excl data sh.used), sh)

/-- The two-fetcher system of the blacklist scenario: two buffers over
one shared state. -/
structure Sys where
  buf1 : List Proxy
  buf2 : List Proxy
  sh : Shared
deriving DecidableEq

/-- One interleaving step: the chosen fetcher (true = first) performs
`get(1)` against the fixed upstream set `S` (every page is `S`), with
exclusion enabled on both fetchers. -/
def stepSys (S : List Proxy) (b : Bool) (st : Sys) : Option (List Proxy × Sys) :=
  if b then
    match get (fun _ => S) (fun _ => 0) true 1 1 st.buf1 st.sh with
    | none => none
    | some (res, buf, sh) => some (res, ⟨buf, st.buf2, sh⟩)
  else
    match get (fun _ => S) (fun _ => 0) true 1 1 st.buf2 st.sh with
    | none => none
    | some (res, buf, sh) => some (res, ⟨st.buf1, buf, sh⟩)

/-- Run an interleaved schedule of `get(1)` calls (true = first fetcher)
and concatenate the dispensed proxies in call order. -/
def runSched (S : List Proxy) : List Bool → Sys → Option (List Proxy × Sys)
  | [], st => some ([], st)
  | b :: rest, st =>
      match stepSys S b st with
      | none => none
      | some (out, st) =>
          match runSched S rest st with
          | none => none
          | some (outs, st) => some (out ++ outs, st)

/-- The invalidity conditions that `_verify_params` checks, as the spec
enumerates them: conflicting country options, a non-enum `protocol` or
`level`, an unrecognized name, or an out-of-bounds bounded option. -/
def InvalidParams (params : Params) : Prop :=
  ((plookup params "countries").isSome ∧ (plookup params "not_countries").isSome) ∨
  (∃ v, plookup params "protocol" = some v ∧ isProtocolVal v = false) ∨
  (∃ v, plookup params "level" = some v ∧ isLevelVal v = false) ∨
  (∃ kv ∈ params, kv.1 ∉ PARAMS) ∨
  (∃ kv ∈ params, ∃ lo hi n, PARAM_BOUNDS kv.1 = some (lo, hi) ∧
    asInt kv.2 = some n ∧ (n < lo ∨ n > hi))

/-- The upstream-facing option vocabulary: the translated names plus the
untranslated recognized names plus the implicit `format` and `limit`. -/
def VOCAB : List String :=
  ["api", "level", "type", "country", "not_country", "last_check",
   "speed", "port", "cookies", "google", "https", "post", "referer",
   "user_agent", "format", "limit"]

section DictLemmas

theorem plookup_dinsert (p : Params) (k : String) (v : ParamValue) :
    plookup (dinsert k v p) k = some v := by
  induction p with
  | nil => simp [dinsert, plookup]
  | cons kv rest ih =>
      by_cases h : kv.1 = k
      · simp [dinsert, h, plookup]
      · simpa [dinsert, h, plookup] using ih

theorem plookup_dinsert_ne (p : Params) {k key : String} (v : ParamValue)
    (h : key ≠ k) : plookup (dinsert k v p) key = plookup p key := by
  induction p with
  | nil => simp [dinsert, plookup, Ne.symm h]
  | cons kv rest ih =>
      by_cases hk : kv.1 = k
      · simp [dinsert, hk, plookup, Ne.symm h, h]
      · by_cases hkey : kv.1 = key <;>
          simp [dinsert, hk, plookup, hkey, h, ih]

theorem plookup_derase_ne (p : Params) {k key : String} (h : key ≠ k) :
    plookup (derase k p) key = plookup p key := by
  induction p with
  | nil => simp [derase, plookup]
  | cons kv rest ih =>
      by_cases hk : kv.1 = k
      · simp [derase, plookup, hk, Ne.symm h, h] at ih ⊢
        exact ih
      · by_cases hkey : kv.1 = key
        · simp [derase, plookup, List.filter_cons, hk, hkey, h]
        · simp [derase, plookup, List.filter_cons, hk, hkey, h] at ih ⊢
          exact ih

theorem plookup_none_iff (p : Params) (k : String) :
    plookup p k = none ↔ k ∉ keys p := by
  induction p with
  | nil => simp [plookup, keys]
  | cons kv rest ih =>
      by_cases h : kv.1 = k
      · simp [plookup, h, keys]
      · simp [plookup, h, keys, ih, Ne.symm h]

theorem mem_keys_dinsert {p : Params} {k key : String} {v : ParamValue}
    (h : key ∈ keys (dinsert k v p)) : key = k ∨ key ∈ keys p := by
  induction p with
  | nil => simpa [dinsert, keys] using h
  | cons kv rest ih =>
      by_cases hk : kv.1 = k
      · simpa [dinsert, hk, keys] using h
      · simp [dinsert, hk, keys] at h
        rcases h with h | h
        · exact Or.inr (by simp [keys, h])
        · rcases ih (by simpa [keys] using h) with h' | h'
          · exact Or.inl h'
          · exact Or.inr (by simp [keys]; right; simpa [keys] using h')

theorem mem_keys_derase {p : Params} {k key : String}
    (h : key ∈ keys (derase k p)) : key ∈ keys p ∧ key ≠ k := by
  induction p with
  | nil => simp [derase, keys] at h
  | cons kv rest ih =>
      by_cases hk : kv.1 = k
      · have h' := ih (by simpa [derase, keys, hk] using h)
        exact ⟨by simp [keys]; right; simpa [keys] using h'.1, h'.2⟩
      · rcases (by simpa [derase, keys, hk] using h : key = kv.1 ∨
            key ∈ keys (derase k rest)) with h' | h'
        · subst h'; exact ⟨by simp [keys], hk⟩
        · have h'' := ih h'
          exact ⟨by simp [keys]; right; simpa [keys] using h''.1, h''.2⟩

end DictLemmas

section GetLemmas

theorem pySliceTo_zero (xs : List Proxy) : pySliceTo xs 0 = [] := by
  simp [pySliceTo]

theorem pySliceFrom_zero (xs : List Proxy) : pySliceFrom xs 0 = xs := by
  simp [pySliceFrom]

theorem pySliceTo_natCast (xs : List Proxy) (n : Nat) :
    pySliceTo xs (n : Int) = xs.take n := by
  simp [pySliceTo]

theorem pySliceFrom_natCast (xs : List Proxy) (n : Nat) :
    pySliceFrom xs (n : Int) = xs.drop n := by
  simp [pySliceFrom]

theorem pySliceTo_neg (xs : List Proxy) {a : Int} (ha : a < 0) :
    pySliceTo xs a = xs.take (((xs.length : Int) + a).toNat) := by
  rw [pySliceTo, if_neg (not_le.mpr ha)]

theorem pySliceFrom_neg (xs : List Proxy) {a : Int} (ha : a < 0) :
    pySliceFrom xs a = xs.drop (((xs.length : Int) + a).toNat) := by
  rw [pySliceFrom, if_neg (not_le.mpr ha)]

theorem mem_setUnion {used temp : List Proxy} (x : Proxy) :
    x ∈ setUnion used temp ↔ x ∈ used ∨ x ∈ temp := by
  simp only [setUnion, List.mem_append, List.mem_filter, decide_eq_true_eq]
  tauto

theorem setUnion_nil (used : List Proxy) : setUnion used [] = used := by
  simp [setUnion]

theorem getLoop_of_ge (pages : Nat → List Proxy) (clock : Nat → Int)
    (excl : Bool) (amount : Int) (fuel : Nat) (buf : List Proxy) (sh : Shared)
    (h : ¬ (buf.length : Int) < amount) :
    getLoop pages clock excl amount fuel buf sh = some (buf, sh) := by
  cases fuel <;> simp [getLoop, h]

theorem getLoop_append (pages : Nat → List Proxy) (clock : Nat → Int)
    (excl : Bool) (amount : Int) :
    ∀ (fuel : Nat) (buf : List Proxy) (sh : Shared) (buf' : List Proxy)
      (sh' : Shared),
    getLoop pages clock excl amount fuel buf sh = some (buf', sh') →
    ∃ ext, buf' = buf ++ ext := by
  intro fuel
  induction fuel with
  | zero =>
      intro buf sh buf' sh' h
      by_cases hc : (buf.length : Int) < amount
      · simp [getLoop, hc] at h
      · simp [getLoop, hc] at h
        exact ⟨[], by simp [h.1]⟩
  | succ fuel ih =>
      intro buf sh buf' sh' h
      by_cases hc : (buf.length : Int) < amount
      · simp only [getLoop, if_pos hc] at h
        obtain ⟨ext, hext⟩ := ih _ _ _ _ h
        exact ⟨_, by rw [hext, List.append_assoc]⟩
      · simp [getLoop, hc] at h
        exact ⟨[], by simp [h.1]⟩

theorem getLoop_length (pages : Nat → List Proxy) (clock : Nat → Int)
    (excl : Bool) (amount : Int) :
    ∀ (fuel : Nat) (buf : List Proxy) (sh : Shared) (buf' : List Proxy)
      (sh' : Shared),
    getLoop pages clock excl amount fuel buf sh = some (buf', sh') →
    ¬ (buf'.length : Int) < amount := by
  intro fuel
  induction fuel with
  | zero =>
      intro buf sh buf' sh' h
      by_cases hc : (buf.length : Int) < amount
      · simp [getLoop, hc] at h
      · simp [getLoop, hc] at h
        rw [← h.1]; exact hc
  | succ fuel ih =>
      intro buf sh buf' sh' h
      by_cases hc : (buf.length : Int) < amount
      · simp only [getLoop, if_pos hc] at h
        exact ih _ _ _ _ h
      · simp [getLoop, hc] at h
        rw [← h.1]; exact hc

end GetLemmas

theorem filter_not_used (excl : Bool) (buf used : List Proxy)
    (hdisj : excl = true → ∀ p ∈ buf, p ∉ used) :
    (if excl then buf.filter (fun p => decide (p ∉ used)) else buf) = buf := by
  cases hex : excl
  · rfl
  · simp only [if_pos rfl]
    apply List.filter_eq_self.mpr
    intro p hp
    simpa using hdisj hex p hp

/-- C9: `get(0)` returns the empty sequence, performs no upstream fetch
(the request counter does not move), and leaves the shared state — the
last-request timestamp and the used-set — unchanged; only the local
buffer may shrink by the exclusion filter of line 193. -/
theorem get_zero_frame (pages : Nat → List Proxy) (clock : Nat → Int)
    (excl : Bool) (fuel : Nat) (buf : List Proxy) (sh : Shared) :
    get pages clock excl 0 fuel buf sh =
      some ([], if excl then buf.filter (fun p => decide (p ∉ sh.used)) else buf,
            sh) := by
  have h : ∀ b : List Proxy, ¬ ((b.length : Int) < 0) := fun b => by omega
  simp only [get]
  rw [getLoop_of_ge _ _ _ _ _ _ _ (h _)]
  simp only [pySliceTo_zero, pySliceFrom_zero, setUnion_nil]
  cases excl <;> simp

/-- C10 fails as stated: with exclusion on, a three-proxy buffer
`["a","b","c"]` (so k = 3) and `"c"` already in the shared used-set,
`get(-1)` filters the buffer to `["a","b"]` first and then slices that:
it returns `["a"]` — not the first k−|a| = 2 buffered proxies
`["a","b"]` — and retains `["b"]` — not the last |a| = 1 proxies
`["c"]`. -/
theorem get_negative_counterexample :
    get (fun _ => []) (fun _ => 0) true (-1) 0 ["a", "b", "c"]
        ⟨none, ["c"], 0⟩ =
      some (["a"], ["b"], ⟨none, ["c", "a"], 0⟩) ∧
    (["a"] : List Proxy) ≠ ["a", "b"] ∧
    (["b"] : List Proxy) ≠ ["c"] :=
  ⟨rfl, by decide, by decide⟩

/-- C10 amended: a negative `amount` is not rejected, but the slice
applies to the filtered buffer `fbuf` (the buffer minus the shared
used-set when exclusion is on, the buffer itself otherwise): when
`|a| ≤  fbuf.length`, `get(a)` returns all but the last `|a|` proxies of
`fbuf` (Python negative-slice semantics), retains exactly those last
`|a|`, performs no fetch, and, when exclusion is on, adds the returned
proxies to the shared used-set — a negative amount silently dispenses
proxies instead of being rejected. -/
theorem get_negative_filtered (pages : Nat → List Proxy) (clock : Nat → Int)
    (excl : Bool) (fuel : Nat) (buf fbuf : List Proxy) (sh : Shared) (a : Int)
    (hfb : fbuf = if excl then buf.filter (fun p => decide (p ∉ sh.used))
                  else buf)
    (ha : a < 0) (hak : a.natAbs ≤ fbuf.length) :
    get pages clock excl a fuel buf sh =
      some (fbuf.take (fbuf.length - a.natAbs),
            fbuf.drop (fbuf.length - a.natAbs),
            { sh with used := if excl then
                setUnion sh.used (fbuf.take (fbuf.length - a.natAbs))
              else sh.used }) := by
  have hge : ¬ ((fbuf.length : Int) < a) := by omega
  have htn : (((fbuf.length : Int) + a).toNat) = fbuf.length - a.natAbs := by
    omega
  simp only [get]
  rw [← hfb, getLoop_of_ge _ _ _ _ _ _ _ hge]
  simp only [pySliceTo_neg _ ha, pySliceFrom_neg _ ha, htn]
  cases excl <;> simp

/-- Concrete instantiation of `get_negative_filtered` at the very state
of the counterexample: used-set `{"c"}` filters the buffer to
`["a","b"]`, and `get(-1)` dispenses `["a"]` and retains `["b"]`. -/
theorem get_negative_filtered_witness :
    get (fun _ => []) (fun _ => 0) true (-1) 0 ["a", "b", "c"]
        ⟨none, ["c"], 0⟩ =
      some (["a"], ["b"],
            ⟨none, setUnion ["c"] ["a"], 0⟩) := by
  have h := get_negative_filtered (fun _ => []) (fun _ => 0) true 0
    ["a", "b", "c"] ["a", "b"] ⟨none, ["c"], 0⟩ (-1) (by decide) (by decide)
    (by decide)
  simpa using h

theorem getLoop_terminates (pages : Nat → List Proxy) (clock : Nat → Int)
    (amount : Nat) (hne : ∀ n, pages n ≠ []) :
    ∀ (fuel : Nat) (buf : List Proxy) (sh : Shared),
    amount ≤ buf.length + fuel →
    ∃ r, getLoop pages clock false (amount : Int) fuel buf sh = some r := by
  intro fuel
  induction fuel with
  | zero =>
      intro buf sh hle
      have : ¬ ((buf.length : Int) < (amount : Int)) := by omega
      exact ⟨_, getLoop_of_ge _ _ _ _ _ _ _ this⟩
  | succ fuel ih =>
      intro buf sh hle
      by_cases hc : (buf.length : Int) < (amount : Int)
      · have hnew : (pages sh.reqCount).dedup ≠ [] := by
          intro h0
          exact hne _ ((List.dedup_eq_nil _).mp h0)
        have hlen1 : 1 ≤ (pages sh.reqCount).dedup.length :=
          Nat.one_le_iff_ne_zero.mpr (fun h0 => hnew (List.eq_nil_of_length_eq_zero h0))
        obtain ⟨r, hr⟩ := ih (buf ++ (pages sh.reqCount).dedup)
          ⟨some (clock sh.reqCount), sh.used, sh.reqCount + 1⟩
          (by simp only [List.length_append]; omega)
        refine ⟨r, ?_⟩
        simp only [getLoop, if_pos hc, fetchStep, fetchProxies]
        exact hr
      · exact ⟨_, getLoop_of_ge _ _ _ _ _ _ _ hc⟩

/-- C2: `get(amount)` — whenever the refill loop completes (and with an
inexhaustible upstream it always does: with exclusion off, nonempty
pages and fuel at least `amount` the call returns) — yields a result of
length exactly `amount` consisting of the first `amount` proxies of the
filtered buffer extended by the fetched pages in arrival order, and the
retained buffer is exactly the remainder in the same order. -/
theorem get_amount_spec (pages : Nat → List Proxy) (clock : Nat → Int)
    (excl : Bool) (amount : Nat) (fuel : Nat) (buf : List Proxy)
    (sh : Shared) :
    (∀ (res rest : List Proxy) (sh' : Shared),
      get pages clock excl (amount : Int) fuel buf sh = some (res, rest, sh') →
      res.length = amount ∧
      ∃ ext,
        res = ((if excl then buf.filter (fun p => decide (p ∉ sh.used)) else buf)
                ++ ext).take amount ∧
        rest = ((if excl then buf.filter (fun p => decide (p ∉ sh.used)) else buf)
                ++ ext).drop amount) ∧
    (excl = false → (∀ n, pages n ≠ []) → amount ≤ fuel →
      ∃ res rest sh',
        get pages clock excl (amount : Int) fuel buf sh =
          some (res, rest, sh')) := by
  constructor
  · intro res rest sh' h
    simp only [get] at h
    cases hloop : getLoop pages clock excl (amount : Int) fuel
        (if excl then buf.filter (fun p => decide (p ∉ sh.used)) else buf) sh with
    | none => rw [hloop] at h; simp at h
    | some r =>
        obtain ⟨buf', sh₁⟩ := r
        rw [hloop] at h
        simp only [Option.some.injEq, Prod.mk.injEq] at h
        obtain ⟨hres, hrest, _⟩ := h
        obtain ⟨ext, hext⟩ := getLoop_append _ _ _ _ _ _ _ _ _ hloop
        have hlen := getLoop_length _ _ _ _ _ _ _ _ _ hloop
        have hge : amount ≤ buf'.length := by omega
        refine ⟨?_, ext, ?_, ?_⟩
        · rw [← hres, pySliceTo_natCast, List.length_take]
          omega
        · rw [← hres, pySliceTo_natCast, hext]
        · rw [← hrest, pySliceFrom_natCast, hext]
  · rintro rfl hne hfuel
    obtain ⟨⟨buf', sh₁⟩, hr⟩ := getLoop_terminates pages clock amount hne fuel
      buf sh (by omega)
    refine ⟨pySliceTo buf' (amount : Int), pySliceFrom buf' (amount : Int),
      sh₁, ?_⟩
    simp only [get, Bool.false_eq_true, if_false]
    rw [hr]

/-- Concrete instantiation of `get_amount_spec`: a one-proxy buffer
refilled by a two-proxy page satisfies `get(3)` exactly. -/
theorem get_amount_spec_witness :
    get (fun _ => ["a", "b"]) (fun _ => 0) false 3 3 ["x"] ⟨none, [], 0⟩ =
      some (["x", "a", "b"], [], ⟨some 0, [], 1⟩) ∧
    (["x", "a", "b"] : List Proxy).length = 3 ∧
    (∃ res rest sh',
      get (fun _ => ["a", "b"]) (fun _ => 0) false 3 3 ["x"] ⟨none, [], 0⟩ =
        some (res, rest, sh')) := by
  have hrun :
      get (fun _ => ["a", "b"]) (fun _ => 0) false 3 3 ["x"] ⟨none, [], 0⟩ =
        some (["x", "a", "b"], [], ⟨some 0, [], 1⟩) := by rfl
  have h := (get_amount_spec (fun _ => ["a", "b"]) (fun _ => 0) false 3 3 ["x"]
    ⟨none, [], 0⟩).1 ["x", "a", "b"] [] ⟨some 0, [], 1⟩ hrun
  have ht := (get_amount_spec (fun _ => ["a", "b"]) (fun _ => 0) false 3 3 ["x"]
    ⟨none, [], 0⟩).2 rfl (fun n => by simp) (by omega)
  exact ⟨hrun, h.1, ht⟩

/-- C7 fails as stated: with exclusion on and a single-proxy buffer
whose proxy has meanwhile entered the shared used-set, `drain()`
performs a new upstream fetch (the request count moves 0 → 1) and
returns a proxy that was never buffered, instead of the buffered
remainder. -/
theorem drain_counterexample :
    drain (fun _ => ["b"]) (fun _ => 0) true 1 ["a"] ⟨none, ["a"], 0⟩ =
      some (["b"], [], ⟨some 0, ["a", "b"], 1⟩) ∧
    (["b"] : List Proxy) ≠ ["a"] := by
  exact ⟨rfl, by decide⟩

/-- C7 amended: `drain()` is by definition `get` at the current buffer
length; and provided no buffered proxy is already in the shared used-set
(in particular whenever exclusion is off), it returns exactly the
buffered proxies in order, empties the buffer, and performs no upstream
fetch (timestamp and request count unchanged). -/
theorem drain_spec (pages : Nat → List Proxy) (clock : Nat → Int)
    (excl : Bool) (fuel : Nat) (buf : List Proxy) (sh : Shared)
    (hdisj : excl = true → ∀ p ∈ buf, p ∉ sh.used) :
    drain pages clock excl fuel buf sh =
      some (buf, [],
            { sh with used := if excl then setUnion sh.used buf else sh.used }) ∧
    drain pages clock excl fuel buf sh =
      get pages clock excl (buf.length : Int) fuel buf sh := by
  refine ⟨?_, rfl⟩
  have hge : ¬ ((buf.length : Int) < (buf.length : Int)) := by omega
  simp only [drain, get]
  rw [filter_not_used excl buf sh.used hdisj, getLoop_of_ge _ _ _ _ _ _ _ hge]
  simp only [pySliceTo_natCast, pySliceFrom_natCast, List.take_length,
    List.drop_length]
  cases excl <;> simp

/-- Concrete instantiation of `drain_spec`: draining a two-proxy buffer
disjoint from the used-set returns it whole with no fetch. -/
theorem drain_spec_witness :
    drain (fun _ => []) (fun _ => 0) true 0 ["a", "b"] ⟨some 4, ["c"], 2⟩ =
      some (["a", "b"], [], ⟨some 4, setUnion ["c"] ["a", "b"], 2⟩) := by
  have h := drain_spec (fun _ => []) (fun _ => 0) true 0 ["a", "b"]
    ⟨some 4, ["c"], 2⟩ (by intro _ p hp; fin_cases hp <;> simp)
  simpa using h.1

/-- C4: with no `api` credential in the finalized params and a recorded
shared timestamp `t`, a fetch arriving at any `now` is dispatched no
earlier than `t + delay` (lines 216-220 sleep off the difference), so —
the timestamp being rewritten at each dispatch — consecutive
non-authenticated dispatches are at least `delay` apart; with a
credential present the dispatch happens immediately at `now`. -/
theorem dispatch_rate_limit (delay : Int) :
    (∀ (params : Params) (t now : Int), plookup params "api" = none →
       t + delay ≤ dispatchTime delay params (some t) now) ∧
    (∀ (params : Params) (t net now : Int), plookup params "api" = none →
       0 ≤ net → delay ≤ dispatchTime delay params (some (t + net)) now - t) ∧
    (∀ (params : Params) (last : Option Int) (now : Int),
       (plookup params "api").isSome → dispatchTime delay params last now = now) := by
  have key : ∀ (params : Params) (t now : Int), plookup params "api" = none →
      t + delay ≤ dispatchTime delay params (some t) now := by
    intro params t now hapi
    simp only [dispatchTime]
    split
    · omega
    · next hcond =>
        have hb : ¬ (now - t < delay) := fun hb => hcond ⟨hapi, hb⟩
        omega
  refine ⟨key, ?_, ?_⟩
  · intro params t net now hapi hnet
    have := key params (t + net) now hapi
    omega
  · intro params last now hapi
    cases last with
    | none => rfl
    | some t =>
        simp only [dispatchTime]
        rw [if_neg]
        intro hc
        rw [hc.1] at hapi
        simp at hapi

/-- Concrete instantiation of `dispatch_rate_limit`: with the window at
5, a non-authenticated fetch at time 3 after a request at time 0 is
held to time 5, while an authenticated one proceeds at 3. -/
theorem dispatch_rate_limit_witness :
    (0 : Int) + 5 ≤ dispatchTime 5 [] (some 0) 3 ∧
    dispatchTime 5 [("api", ParamValue.pstr "k")] (some 0) 3 = 3 :=
  ⟨(dispatch_rate_limit 5).1 [] 0 3 rfl,
   (dispatch_rate_limit 5).2.2 [("api", ParamValue.pstr "k")] (some 0) 3
     (by decide)⟩

/-- C6: when the response body fails to parse, `_fetch` raises the typed
error the known error table assigns to the raw text, or the generic
`ProxyError` carrying the raw text when no entry matches; and the shared
last-request timestamp has been written by then — it is written for
every outcome, error or not. -/
theorem fetch_error_classified (excl : Bool) (resp : HttpResp) (now : Int)
    (sh : Shared) (h : resp.parsedData = none) :
    fetchFull excl resp now sh =
      (.error (match API_ERROR_MAP resp.text with
               | some e => e
               | none => .proxyError resp.text),
       ⟨some now, sh.used, sh.reqCount + 1⟩) ∧
    ∀ r : HttpResp, ((fetchFull excl r now sh).2).lastRequested = some now := by
  constructor
  · simp only [fetchFull, h]
  · intro r
    cases hr : r.parsedData <;> simp [fetchFull, hr]

/-- Concrete instantiation of `fetch_error_classified`: the known
message "No Proxies left" maps to its typed error and the timestamp is
recorded. -/
theorem fetch_error_classified_witness :
    fetchFull false ⟨"No Proxies left", none⟩ 7 ⟨none, [], 0⟩ =
      (.error ApiError.noProxiesLeft, ⟨some 7, [], 1⟩) := by
  have h := fetch_error_classified false ⟨"No Proxies left", none⟩ 7
    ⟨none, [], 0⟩ rfl
  exact h.1

section Blacklist

theorem get_one_cons (S buf : List Proxy) (sh : Shared) (p₀ : Proxy)
    (rest : List Proxy)
    (hf : buf.filter (fun p => decide (p ∉ sh.used)) = p₀ :: rest) :
    get (fun _ => S) (fun _ => 0) true 1 1 buf sh =
      some ([p₀], rest, { sh with used := setUnion sh.used [p₀] }) := by
  have hlen : ¬ (((p₀ :: rest).length : Int) < 1) := by
    simp only [List.length_cons]
    omega
  simp only [get, if_true, hf]
  rw [getLoop_of_ge _ _ _ _ _ _ _ hlen]
  simp [pySliceTo, pySliceFrom]

theorem get_one_nil (S buf : List Proxy) (sh : Shared) (p₀ : Proxy)
    (rest : List Proxy)
    (hf : buf.filter (fun p => decide (p ∉ sh.used)) = [])
    (hn : (S.dedup).filter (fun p => decide (p ∉ sh.used)) = p₀ :: rest) :
    get (fun _ => S) (fun _ => 0) true 1 1 buf sh =
      some ([p₀], rest, ⟨some 0, setUnion sh.used [p₀], sh.reqCount + 1⟩) := by
  have hr : ¬ ((rest.length : Int) < 0) := by omega
  simp only [get, if_true, hf, getLoop, List.length_nil, fetchStep, fetchProxies,
    if_true, hn]
  norm_num
  simp [hr, pySliceTo, pySliceFrom]

theorem get_one_step (S buf : List Proxy) (sh : Shared)
    (hbuf : ∀ p ∈ buf, p ∈ S)
    (hne : ∃ q, q ∈ S ∧ q ∉ sh.used) :
    ∃ p buf' sh',
      get (fun _ => S) (fun _ => 0) true 1 1 buf sh = some ([p], buf', sh') ∧
      p ∈ S ∧ p ∉ sh.used ∧ (∀ q ∈ buf', q ∈ S) ∧
      (∀ x, x ∈ sh'.used ↔ x ∈ sh.used ∨ x = p) := by
  cases hf : buf.filter (fun p => decide (p ∉ sh.used)) with
  | cons p₀ rest =>
      have hmem : ∀ q ∈ p₀ :: rest, q ∈ buf ∧ q ∉ sh.used := by
        intro q hq
        have : q ∈ buf.filter (fun p => decide (p ∉ sh.used)) := by
          rw [hf]; exact hq
        have h' := List.mem_filter.mp this
        exact ⟨h'.1, by simpa using h'.2⟩
      refine ⟨p₀, rest, _, get_one_cons S buf sh p₀ rest hf, ?_, ?_, ?_, ?_⟩
      · exact hbuf _ (hmem p₀ (by simp)).1
      · exact (hmem p₀ (by simp)).2
      · intro q hq
        exact hbuf _ (hmem q (by simp [hq])).1
      · intro x
        simp [mem_setUnion]
  | nil =>
      have hne' : (S.dedup).filter (fun p => decide (p ∉ sh.used)) ≠ [] := by
        obtain ⟨q, hqS, hqu⟩ := hne
        have : q ∈ (S.dedup).filter (fun p => decide (p ∉ sh.used)) := by
          rw [List.mem_filter]
          exact ⟨List.mem_dedup.mpr hqS, by simpa using hqu⟩
        exact List.ne_nil_of_mem this
      cases hn : (S.dedup).filter (fun p => decide (p ∉ sh.used)) with
      | nil => exact absurd hn hne'
      | cons p₀ rest =>
          have hmem : ∀ q ∈ p₀ :: rest, q ∈ S ∧ q ∉ sh.used := by
            intro q hq
            have : q ∈ (S.dedup).filter (fun p => decide (p ∉ sh.used)) := by
              rw [hn]; exact hq
            have h' := List.mem_filter.mp this
            exact ⟨List.mem_dedup.mp h'.1, by simpa using h'.2⟩
          refine ⟨p₀, rest, _, get_one_nil S buf sh p₀ rest hf hn, ?_, ?_, ?_, ?_⟩
          · exact (hmem p₀ (by simp)).1
          · exact (hmem p₀ (by simp)).2
          · intro q hq
            exact (hmem q (by simp [hq])).1
          · intro x
            simp [mem_setUnion]

theorem stepSys_spec (S : List Proxy) (b : Bool) (st : Sys)
    (hb1 : ∀ p ∈ st.buf1, p ∈ S) (hb2 : ∀ p ∈ st.buf2, p ∈ S)
    (hne : ∃ q, q ∈ S ∧ q ∉ st.sh.used) :
    ∃ p st', stepSys S b st = some ([p], st') ∧
      p ∈ S ∧ p ∉ st.sh.used ∧
      (∀ q ∈ st'.buf1, q ∈ S) ∧ (∀ q ∈ st'.buf2, q ∈ S) ∧
      (∀ x, x ∈ st'.sh.used ↔ x ∈ st.sh.used ∨ x = p) := by
  cases b with
  | true =>
      obtain ⟨p, buf', sh', hget, hpS, hpu, hbS, hused⟩ :=
        get_one_step S st.buf1 st.sh hb1 hne
      exact ⟨p, ⟨buf', st.buf2, sh'⟩, by simp [stepSys, hget], hpS, hpu, hbS,
        hb2, hused⟩
  | false =>
      obtain ⟨p, buf', sh', hget, hpS, hpu, hbS, hused⟩ :=
        get_one_step S st.buf2 st.sh hb2 hne
      exact ⟨p, ⟨st.buf1, buf', sh'⟩, by simp [stepSys, hget], hpS, hpu, hb1,
        hbS, hused⟩

theorem runSched_spec (S : List Proxy) :
    ∀ (sched : List Bool) (st : Sys),
    (∀ p ∈ st.buf1, p ∈ S) → (∀ p ∈ st.buf2, p ∈ S) →
    (∀ p ∈ st.sh.used, p ∈ S) →
    sched.length + st.sh.used.toFinset.card ≤ S.toFinset.card →
    ∃ outs st', runSched S sched st = some (outs, st') ∧
      outs.length = sched.length ∧ outs.Nodup ∧
      (∀ p ∈ outs, p ∈ S ∧ p ∉ st.sh.used) ∧
      (∀ x, x ∈ st'.sh.used ↔ x ∈ st.sh.used ∨ x ∈ outs) := by
  intro sched
  induction sched with
  | nil =>
      intro st _ _ _ _
      exact ⟨[], st, rfl, rfl, List.nodup_nil, by simp, by simp⟩
  | cons b rest ih =>
      intro st hb1 hb2 hu hcard
      have hlt : st.sh.used.toFinset.card < S.toFinset.card := by
        simp only [List.length_cons] at hcard
        omega
      have hne : ∃ q, q ∈ S ∧ q ∉ st.sh.used := by
        by_contra hcon
        push_neg at hcon
        have hsub2 : S.toFinset ⊆ st.sh.used.toFinset := by
          intro x hx
          simp only [List.mem_toFinset] at hx ⊢
          exact hcon x hx
        have := Finset.card_le_card hsub2
        omega
      obtain ⟨p, st1, hstep, hpS, hpu, hbs1, hbs2, hused1⟩ :=
        stepSys_spec S b st hb1 hb2 hne
      have hused1' : st1.sh.used.toFinset = insert p st.sh.used.toFinset := by
        ext x
        simp only [List.mem_toFinset, Finset.mem_insert, hused1]
        tauto
      have hcard1 : rest.length + st1.sh.used.toFinset.card ≤ S.toFinset.card := by
        rw [hused1', Finset.card_insert_of_not_mem
          (by simp only [List.mem_toFinset]; exact hpu)]
        simp only [List.length_cons] at hcard
        omega
      have hu1 : ∀ q ∈ st1.sh.used, q ∈ S := by
        intro q hq
        rcases (hused1 q).mp hq with h | h
        · exact hu q h
        · subst h; exact hpS
      obtain ⟨outs, st2, hrun, hlen, hnd, houts, hused2⟩ :=
        ih st1 hbs1 hbs2 hu1 hcard1
      refine ⟨p :: outs, st2, ?_, ?_, ?_, ?_, ?_⟩
      · simp [runSched, hstep, hrun]
      · simp [hlen]
      · refine List.nodup_cons.mpr ⟨?_, hnd⟩
        intro hmem
        exact (houts p hmem).2 ((hused1 p).mpr (Or.inr rfl))
      · intro q hq
        rcases List.mem_cons.mp hq with rfl | hq'
        · exact ⟨hpS, hpu⟩
        · obtain ⟨hqS, hqu⟩ := houts q hq'
          exact ⟨hqS, fun hc => hqu ((hused1 q).mpr (Or.inl hc))⟩
      · intro x
        rw [hused2 x, hused1 x]
        simp only [List.mem_cons]
        tauto

end Blacklist

/-- C1: two exclusion-enabled fetchers over one shared state, against an
upstream that returns the same fixed set `S` on every fetch: any
interleaving of `S.dedup.length` many `get(1)` calls succeeds, no proxy
is ever returned twice (across both fetchers), and the returned proxies
are exactly the upstream set — each dispensed exactly once. -/
theorem interleaved_exclusion (S : List Proxy) (sched : List Bool)
    (h : sched.length = S.dedup.length) :
    ∃ outs st', runSched S sched ⟨[], [], Shared.reset⟩ = some (outs, st') ∧
      outs.Nodup ∧ outs.length = sched.length ∧ (∀ p, p ∈ outs ↔ p ∈ S) := by
  have hcard : sched.length + (Shared.reset.used.toFinset).card ≤
      S.toFinset.card := by
    have : S.toFinset.card = S.dedup.length := List.card_toFinset S
    simp [Shared.reset, this, h]
  obtain ⟨outs, st', hrun, hlen, hnd, houts, hused⟩ :=
    runSched_spec S sched ⟨[], [], Shared.reset⟩ (by simp) (by simp)
      (by simp [Shared.reset]) hcard
  refine ⟨outs, st', hrun, hnd, hlen, ?_⟩
  have hsub : outs.toFinset ⊆ S.toFinset := by
    intro x hx
    simp only [List.mem_toFinset] at hx ⊢
    exact (houts x hx).1
  have hcards : S.toFinset.card ≤ outs.toFinset.card := by
    rw [List.toFinset_card_of_nodup hnd, hlen, h, ← List.card_toFinset]
  have heq : outs.toFinset = S.toFinset :=
    Finset.eq_of_subset_of_card_le hsub hcards
  intro p
  constructor
  · intro hp
    exact (houts p hp).1
  · intro hp
    have : p ∈ outs.toFinset := by
      rw [heq]
      simpa [List.mem_toFinset] using hp
    simpa [List.mem_toFinset] using this

/-- Concrete instantiation of `interleaved_exclusion`: three proxies,
schedule fetcher1 / fetcher2 / fetcher1. -/
theorem interleaved_exclusion_witness :
    ∃ outs st',
      runSched ["a", "b", "c"] [true, false, true] ⟨[], [], Shared.reset⟩ =
        some (outs, st') ∧
      outs.Nodup ∧ outs.length = ([true, false, true] : List Bool).length ∧
      (∀ p, p ∈ outs ↔ p ∈ (["a", "b", "c"] : List Proxy)) :=
  interleaved_exclusion ["a", "b", "c"] [true, false, true] (by decide)

section VerifyLemmas

theorem checkParamList_names {l : List (String × ParamValue)}
    (h : checkParamList l = none) : ∀ kv ∈ l, kv.1 ∈ PARAMS := by
  induction l with
  | nil => simp
  | cons kv rest ih =>
      simp only [checkParamList] at h
      by_cases hk : kv.1 ∈ PARAMS
      · rw [if_pos hk] at h
        intro kv' hkv'
        rcases List.mem_cons.mp hkv' with rfl | h'
        · exact hk
        · refine ih ?_ kv' h'
          cases hb : PARAM_BOUNDS kv.1 with
          | none => rw [hb] at h; simp only [] at h; exact h
          | some bd =>
              rw [hb] at h
              simp only [] at h
              cases ha : asInt kv.2 with
              | none => rw [ha] at h; simp at h
              | some n =>
                  rw [ha] at h
                  simp only [] at h
                  by_cases hn : n < bd.1 ∨ n > bd.2
                  · rw [if_pos hn] at h; simp at h
                  · rw [if_neg hn] at h; exact h
      · rw [if_neg hk] at h; simp at h

theorem checkParamList_ne_typeError {l : List (String × ParamValue)}
    (hw : ∀ kv ∈ l, PARAM_BOUNDS kv.1 ≠ none → (asInt kv.2).isSome) :
    checkParamList l ≠ some .typeError := by
  induction l with
  | nil => simp [checkParamList]
  | cons kv rest ih =>
      have hw' : ∀ kv' ∈ rest, PARAM_BOUNDS kv'.1 ≠ none → (asInt kv'.2).isSome :=
        fun kv' h' => hw kv' (List.mem_cons_of_mem _ h')
      simp only [checkParamList]
      by_cases hk : kv.1 ∈ PARAMS
      · rw [if_pos hk]
        cases hb : PARAM_BOUNDS kv.1 with
        | none => simp only []; exact ih hw'
        | some bd =>
            simp only []
            have hsome := hw kv (List.mem_cons_self _ _) (by rw [hb]; simp)
            cases ha : asInt kv.2 with
            | none => rw [ha] at hsome; simp at hsome
            | some n =>
                simp only []
                by_cases hn : n < bd.1 ∨ n > bd.2
                · rw [if_pos hn]; simp
                · rw [if_neg hn]; exact ih hw'
      · rw [if_neg hk]; simp

theorem checkParamList_valueError_iff (l : List (String × ParamValue))
    (hw : ∀ kv ∈ l, PARAM_BOUNDS kv.1 ≠ none → (asInt kv.2).isSome) :
    checkParamList l = some .valueError ↔
      (∃ kv ∈ l, kv.1 ∉ PARAMS) ∨
      (∃ kv ∈ l, ∃ lo hi n, PARAM_BOUNDS kv.1 = some (lo, hi) ∧
        asInt kv.2 = some n ∧ (n < lo ∨ n > hi)) := by
  induction l with
  | nil => simp [checkParamList]
  | cons kv rest ih =>
      have hw' : ∀ kv' ∈ rest, PARAM_BOUNDS kv'.1 ≠ none → (asInt kv'.2).isSome :=
        fun kv' h' => hw kv' (List.mem_cons_of_mem _ h')
      by_cases hk : kv.1 ∈ PARAMS
      · cases hb : PARAM_BOUNDS kv.1 with
        | none =>
            have hstep : checkParamList (kv :: rest) = checkParamList rest := by
              simp only [checkParamList]
              rw [if_pos hk, hb]
            rw [hstep, ih hw']

            constructor
            · rintro (⟨kv', hm, hn⟩ | ⟨kv', hm, hrest⟩)
              · exact Or.inl ⟨kv', List.mem_cons_of_mem _ hm, hn⟩
              · exact Or.inr ⟨kv', List.mem_cons_of_mem _ hm, hrest⟩
            · rintro (⟨kv', hm, hn⟩ | ⟨kv', hm, hrest⟩)
              · rcases List.mem_cons.mp hm with rfl | hm'
                · exact absurd hk hn
                · exact Or.inl ⟨kv', hm', hn⟩
              · rcases List.mem_cons.mp hm with rfl | hm'
                · obtain ⟨lo, hi, n, hbd, _⟩ := hrest
                  rw [hb] at hbd
                  cases hbd
                · exact Or.inr ⟨kv', hm', hrest⟩
        | some bd =>
            have hsome := hw kv (List.mem_cons_self _ _) (by rw [hb]; simp)
            obtain ⟨n, ha⟩ := Option.isSome_iff_exists.mp hsome
            by_cases hn : n < bd.1 ∨ n > bd.2
            · have hstep : checkParamList (kv :: rest) = some .valueError := by
                simp only [checkParamList]
                rw [if_pos hk, hb]
                simp only []
                rw [ha]
                simp only []
                rw [if_pos hn]
              rw [hstep]
              refine iff_of_true rfl (Or.inr ⟨kv, List.mem_cons_self _ _,
                bd.1, bd.2, n, by rw [hb], ha, hn⟩)
            · have hstep : checkParamList (kv :: rest) = checkParamList rest := by
                simp only [checkParamList]
                rw [if_pos hk, hb]
                simp only []
                rw [ha]
                simp only []
                rw [if_neg hn]
              rw [hstep, ih hw']
              constructor
              · rintro (⟨kv', hm, hn'⟩ | ⟨kv', hm, hrest⟩)
                · exact Or.inl ⟨kv', List.mem_cons_of_mem _ hm, hn'⟩
                · exact Or.inr ⟨kv', List.mem_cons_of_mem _ hm, hrest⟩
              · rintro (⟨kv', hm, hn'⟩ | ⟨kv', hm, hrest⟩)
                · rcases List.mem_cons.mp hm with rfl | hm'
                  · exact absurd hk hn'
                  · exact Or.inl ⟨kv', hm', hn'⟩
                · rcases List.mem_cons.mp hm with rfl | hm'
                  · obtain ⟨lo, hi, n', hbd, ha', hn'⟩ := hrest
                    rw [hb] at hbd
                    injection hbd with hbd
                    rw [ha] at ha'
                    injection ha' with ha'
                    subst ha'
                    rw [hbd] at hn
                    simp only [] at hn
                    exact absurd hn' hn
                  · exact Or.inr ⟨kv', hm', hrest⟩
      · have hstep : checkParamList (kv :: rest) = some .valueError := by
          simp only [checkParamList]
          rw [if_neg hk]
        rw [hstep]
        exact iff_of_true rfl (Or.inl ⟨kv, List.mem_cons_self _ _, hk⟩)

theorem badEnum_true_iff (p : Params) (k : String) (c : ParamValue → Bool) :
    badEnum p k c = true ↔ ∃ v, plookup p k = some v ∧ c v = false := by
  cases h : plookup p k <;> simp [badEnum, h]

theorem verify_none_check {p : Params} (h : verify_params p = none) :
    checkParamList p = none := by
  unfold verify_params at h
  split_ifs at h with h1 h2 h3
  exact h

theorem verify_params_valueError_iff (params : Params)
    (hw : ∀ kv ∈ params, PARAM_BOUNDS kv.1 ≠ none → (asInt kv.2).isSome) :
    verify_params params = some .valueError ↔ InvalidParams params := by
  unfold verify_params InvalidParams
  by_cases h1 : (plookup params "countries").isSome ∧
      (plookup params "not_countries").isSome
  · rw [if_pos h1]
    exact iff_of_true rfl (Or.inl h1)
  · rw [if_neg h1]
    by_cases h2 : badEnum params "protocol" isProtocolVal = true
    · rw [if_pos h2]
      exact iff_of_true rfl (Or.inr (Or.inl ((badEnum_true_iff _ _ _).mp h2)))
    · rw [if_neg h2]
      by_cases h3 : badEnum params "level" isLevelVal = true
      · rw [if_pos h3]
        exact iff_of_true rfl
          (Or.inr (Or.inr (Or.inl ((badEnum_true_iff _ _ _).mp h3))))
      · rw [if_neg h3]
        rw [checkParamList_valueError_iff params hw]
        have hn2 : ¬ ∃ v, plookup params "protocol" = some v ∧
            isProtocolVal v = false :=
          fun hc => h2 ((badEnum_true_iff _ _ _).mpr hc)
        have hn3 : ¬ ∃ v, plookup params "level" = some v ∧
            isLevelVal v = false :=
          fun hc => h3 ((badEnum_true_iff _ _ _).mpr hc)
        constructor
        · intro h
          exact Or.inr (Or.inr (Or.inr h))
        · rintro (hc | hc | hc | hc | hc)
          · exact absurd hc h1
          · exact absurd hc hn2
          · exact absurd hc hn3
          · exact Or.inl hc
          · exact Or.inr hc

theorem verify_params_classify (params : Params)
    (hw : ∀ kv ∈ params, PARAM_BOUNDS kv.1 ≠ none → (asInt kv.2).isSome) :
    verify_params params = none ∨ verify_params params = some .valueError := by
  cases h : verify_params params with
  | none => exact Or.inl rfl
  | some e =>
      cases e with
      | valueError => exact Or.inr rfl
      | typeError =>
          exfalso
          unfold verify_params at h
          split_ifs at h with h1 h2 h3
          · exact VErr.noConfusion (Option.some.inj h)
          · exact VErr.noConfusion (Option.some.inj h)
          · exact VErr.noConfusion (Option.some.inj h)
          · exact checkParamList_ne_typeError hw h

theorem init_error_iff_verify (env : Option String) (excl : Bool)
    (params : Params) :
    init env excl params = .error VErr.valueError ↔
      verify_params params = some .valueError := by
  unfold init setup_params
  cases hv : verify_params params with
  | none => cases env <;> simp
  | some e => cases e <;> simp

end VerifyLemmas

/-- C3: fetcher construction raises a `ValueError` precisely when the
parameters are invalid — conflicting `countries`/`not_countries`, a
non-enum `protocol` or `level`, an unrecognized option name, or a
bounded option outside its inclusive bounds — and any parameter mapping
violating none of these is accepted.  The check runs synchronously
inside `__init__` before any renaming.  (Stated for mappings whose
bounded options carry integer-comparable values, as the claim's numeric
bounds presuppose.) -/
theorem init_config_error_iff (env : Option String) (excl : Bool)
    (params : Params)
    (hw : ∀ kv ∈ params, PARAM_BOUNDS kv.1 ≠ none → (asInt kv.2).isSome) :
    (init env excl params = .error VErr.valueError ↔ InvalidParams params) ∧
    (¬ InvalidParams params → ∃ m, init env excl params = .ok m) := by
  constructor
  · rw [init_error_iff_verify, verify_params_valueError_iff params hw]
  · intro hinv
    have hv : verify_params params = none := by
      rcases verify_params_classify params hw with h | h
      · exact h
      · exact absurd ((verify_params_valueError_iff params hw).mp h) hinv
    unfold init setup_params
    rw [hv]
    cases env <;> exact ⟨_, rfl⟩

/-- Concrete instantiation of `init_config_error_iff`: supplying both
`countries` and `not_countries` is rejected with a `ValueError`, and the
empty parameter mapping is accepted. -/
theorem init_config_error_witness :
    init none true [("countries", ParamValue.pstr "US"),
      ("not_countries", ParamValue.plist ["CA"])] = .error VErr.valueError ∧
    ∃ m, init none true ([] : Params) = .ok m :=
  ⟨(init_config_error_iff none true _ (by decide)).1.mpr
      (Or.inl ⟨by decide, by decide⟩),
   (init_config_error_iff none true [] (by decide)).2 (by
      intro h
      rcases h with h | h | h | h | h
      · exact absurd h.1 (by decide)
      · obtain ⟨v, hv, _⟩ := h
        exact Option.noConfusion hv
      · obtain ⟨v, hv, _⟩ := h
        exact Option.noConfusion hv
      · obtain ⟨kv, hm, _⟩ := h
        simp at hm
      · obtain ⟨kv, hm, _⟩ := h
        simp at hm)⟩

section RenameFormatLemmas

theorem plookup_rename1_ne (p : Params) {b a key : String} (hb : key ≠ b)
    (ha : key ≠ a) : plookup (rename1 b a p) key = plookup p key := by
  unfold rename1
  cases h : plookup p b with
  | none => rfl
  | some v => rw [plookup_derase_ne _ hb, plookup_dinsert_ne _ _ ha]

theorem plookup_rename1_after (p : Params) {b a : String} (hba : b ≠ a) :
    plookup (rename1 b a p) a =
      match plookup p b with
      | some v => some v
      | none => plookup p a := by
  unfold rename1
  cases h : plookup p b with
  | none => rfl
  | some v => rw [plookup_derase_ne _ (Ne.symm hba), plookup_dinsert]

theorem rename_params_eq (p : Params) :
    rename_params p =
      rename1 "time_to_connect" "speed"
        (rename1 "last_checked" "last_check"
          (rename1 "not_countries" "not_country"
            (rename1 "countries" "country"
              (rename1 "protocol" "type" (rename1 "api_key" "api" p))))) := rfl

theorem plookup_rename_params_api (p : Params)
    (hno : plookup p "api" = none) :
    plookup (rename_params p) "api" = plookup p "api_key" := by
  rw [rename_params_eq,
    plookup_rename1_ne _ (by decide) (by decide),
    plookup_rename1_ne _ (by decide) (by decide),
    plookup_rename1_ne _ (by decide) (by decide),
    plookup_rename1_ne _ (by decide) (by decide),
    plookup_rename1_ne _ (by decide) (by decide),
    plookup_rename1_after _ (by decide)]
  cases h : plookup p "api_key" with
  | none => simp [hno]
  | some v => simp

theorem plookup_joinCountry_ne (p : Params) {k key : String} (h : key ≠ k) :
    plookup (joinCountry k p) key = plookup p key := by
  cases hv : plookup p k with
  | none => simp [joinCountry, hv]
  | some v =>
      cases v <;> simp [joinCountry, hv, plookup_dinsert_ne _ _ h]

theorem plookup_enumValue_ne (p : Params) {k key : String} (h : key ≠ k) :
    plookup (enumValue k p) key = plookup p key := by
  cases hv : plookup p k with
  | none => simp [enumValue, hv]
  | some v =>
      cases v <;> simp [enumValue, hv, plookup_dinsert_ne _ _ h]

theorem format_params_spec (r : Params) :
    plookup (format_params r) "format" = some (.pstr "json") ∧
    plookup (format_params r) "api" = plookup r "api" ∧
    plookup (format_params r) "limit" =
      some (.pint (if (plookup r "api").isSome then 20 else 5)) := by
  simp only [format_params]
  set A := dinsert "format" (ParamValue.pstr "json") r with hA
  set B := if (plookup A "api").isSome then dinsert "limit" (ParamValue.pint 20) A
           else dinsert "limit" (ParamValue.pint 5) A with hB
  set C := if (plookup B "country").isSome then joinCountry "country" B
           else if (plookup B "not_country").isSome then
             joinCountry "not_country" B
           else B with hC
  have hCkey : ∀ key, key ≠ "country" → key ≠ "not_country" →
      plookup C key = plookup B key := by
    intro key h1 h2
    rw [hC]
    split_ifs with hc1 hc2
    · exact plookup_joinCountry_ne B h1
    · exact plookup_joinCountry_ne B h2
    · rfl
  have hD : ∀ key, key ≠ "level" → key ≠ "type" →
      plookup (enumValue "type" (enumValue "level" C)) key = plookup C key := by
    intro key h1 h2
    rw [plookup_enumValue_ne _ h2, plookup_enumValue_ne _ h1]
  have hAapi : plookup A "api" = plookup r "api" := by
    rw [hA, plookup_dinsert_ne _ _ (by decide)]
  have hBapi : plookup B "api" = plookup r "api" := by
    rw [hB]
    split_ifs <;> rw [plookup_dinsert_ne _ _ (by decide), hAapi]
  refine ⟨?_, ?_, ?_⟩
  · rw [hD _ (by decide) (by decide), hCkey _ (by decide) (by decide)]
    rw [hB]
    split_ifs <;>
      rw [plookup_dinsert_ne _ _ (by decide), hA, plookup_dinsert]
  · rw [hD _ (by decide) (by decide), hCkey _ (by decide) (by decide), hBapi]
  · rw [hD _ (by decide) (by decide), hCkey _ (by decide) (by decide), hB,
      hAapi]
    cases hapi : (plookup r "api").isSome <;>
      simp only [hapi, Bool.false_eq_true, if_false, if_true, plookup_dinsert]

theorem mem_keys_rename1 {p : Params} {b a key : String}
    (h : key ∈ keys (rename1 b a p)) :
    key = a ∨ (key ∈ keys p ∧ key ≠ b) := by
  unfold rename1 at h
  cases hv : plookup p b with
  | none =>
      rw [hv] at h
      refine Or.inr ⟨h, ?_⟩
      intro hkb
      subst hkb
      exact ((plookup_none_iff p key).mp hv) h
  | some v =>
      rw [hv] at h
      obtain ⟨h1, h2⟩ := mem_keys_derase h
      rcases mem_keys_dinsert h1 with h3 | h3
      · exact Or.inl h3
      · exact Or.inr ⟨h3, h2⟩

theorem mem_keys_joinCountry {p : Params} {k key : String}
    (h : key ∈ keys (joinCountry k p)) : key = k ∨ key ∈ keys p := by
  unfold joinCountry at h
  cases hv : plookup p k with
  | none => rw [hv] at h; exact Or.inr h
  | some v =>
      rw [hv] at h
      cases v <;> first
        | exact Or.inr h
        | exact mem_keys_dinsert h

theorem mem_keys_enumValue {p : Params} {k key : String}
    (h : key ∈ keys (enumValue k p)) : key = k ∨ key ∈ keys p := by
  unfold enumValue at h
  cases hv : plookup p k with
  | none => rw [hv] at h; exact Or.inr h
  | some v =>
      rw [hv] at h
      cases v <;> first
        | exact Or.inr h
        | exact mem_keys_dinsert h

theorem mem_keys_rename_params {p : Params} {key : String}
    (h : key ∈ keys (rename_params p)) :
    key = "api" ∨ key = "type" ∨ key = "country" ∨ key = "not_country" ∨
    key = "last_check" ∨ key = "speed" ∨
    (key ∈ keys p ∧ key ≠ "api_key" ∧ key ≠ "protocol" ∧ key ≠ "countries" ∧
      key ≠ "not_countries" ∧ key ≠ "last_checked" ∧
      key ≠ "time_to_connect") := by
  rw [rename_params_eq] at h
  rcases mem_keys_rename1 h with rfl | ⟨h, hn6⟩
  · tauto
  rcases mem_keys_rename1 h with rfl | ⟨h, hn5⟩
  · tauto
  rcases mem_keys_rename1 h with rfl | ⟨h, hn4⟩
  · tauto
  rcases mem_keys_rename1 h with rfl | ⟨h, hn3⟩
  · tauto
  rcases mem_keys_rename1 h with rfl | ⟨h, hn2⟩
  · tauto
  rcases mem_keys_rename1 h with rfl | ⟨h, hn1⟩
  · tauto
  exact Or.inr (Or.inr (Or.inr (Or.inr (Or.inr (Or.inr
    ⟨h, hn1, hn2, hn3, hn4, hn5, hn6⟩)))))

theorem mem_keys_format_params {r : Params} {key : String}
    (h : key ∈ keys (format_params r)) :
    key ∈ keys r ∨
    key ∈ ["format", "limit", "country", "not_country", "level", "type"] := by
  simp only [format_params] at h
  rcases mem_keys_enumValue h with rfl | h
  · simp
  rcases mem_keys_enumValue h with rfl | h
  · simp
  have hstep : ∀ q : Params, key ∈ keys
      (if (plookup q "country").isSome then joinCountry "country" q
       else if (plookup q "not_country").isSome then joinCountry "not_country" q
       else q) → key = "country" ∨ key = "not_country" ∨ key ∈ keys q := by
    intro q hq
    split_ifs at hq with hc1 hc2
    · rcases mem_keys_joinCountry hq with h' | h'
      · exact Or.inl h'
      · exact Or.inr (Or.inr h')
    · rcases mem_keys_joinCountry hq with h' | h'
      · exact Or.inr (Or.inl h')
      · exact Or.inr (Or.inr h')
    · exact Or.inr (Or.inr hq)
  rcases hstep _ h with rfl | rfl | h
  · simp
  · simp
  have hlim : ∀ q : Params, key ∈ keys
      (if (plookup q "api").isSome then dinsert "limit" (ParamValue.pint 20) q
       else dinsert "limit" (ParamValue.pint 5) q) →
      key = "limit" ∨ key ∈ keys q := by
    intro q hq
    split_ifs at hq <;> exact mem_keys_dinsert hq
  rcases hlim _ h with rfl | h
  · simp
  rcases mem_keys_dinsert h with rfl | h
  · simp
  exact Or.inl h

theorem params_mem_vocab (key : String) (hk : key ∈ PARAMS)
    (h1 : key ≠ "api_key") (h2 : key ≠ "protocol") (h3 : key ≠ "countries")
    (h4 : key ≠ "not_countries") (h5 : key ≠ "last_checked")
    (h6 : key ≠ "time_to_connect") : key ∈ VOCAB := by
  simp only [PARAMS, List.mem_cons, List.not_mem_nil, or_false] at hk
  rcases hk with rfl | rfl | rfl | rfl | rfl | rfl | rfl | rfl | rfl | rfl |
    rfl | rfl | rfl | rfl
  · exact absurd rfl h1
  · decide
  · exact absurd rfl h2
  · exact absurd rfl h3
  · exact absurd rfl h4
  · exact absurd rfl h5
  · decide
  · exact absurd rfl h6
  · decide
  · decide
  · decide
  · decide
  · decide
  · decide

theorem keys_valid_subset {params : Params}
    (hok : verify_params params = none) :
    ∀ key ∈ keys params, key ∈ PARAMS := by
  intro key hkey
  obtain ⟨kv, hkv, rfl⟩ := List.mem_map.mp hkey
  exact checkParamList_names (verify_none_check hok) kv hkv

theorem setup_ok_form (env : Option String) (params : Params)
    (hok : verify_params params = none) :
    setup_params env params = .ok (format_params (rename_params
      (match env with
       | some v => dinsert "api_key" (ParamValue.pstr v) params
       | none => params))) := by
  unfold setup_params
  rw [hok]

end RenameFormatLemmas

/-- C5: when the `PUBPROXY_API_KEY` environment variable is set at
construction, the finalized query's `api` option equals the environment
value, overwriting any caller-supplied `api_key`; when it is unset, a
caller-supplied `api_key` is kept unchanged (renamed to `api`); when
neither exists the finalized query has no credential option. -/
theorem setup_credential (env : Option String) (params : Params)
    (hok : verify_params params = none) :
    ∃ fp, setup_params env params = .ok fp ∧
      plookup fp "api" =
        (match env with
         | some v => some (ParamValue.pstr v)
         | none => plookup params "api_key") := by
  refine ⟨_, setup_ok_form env params hok, ?_⟩
  have hPapi : plookup params "api" = none := by
    rw [plookup_none_iff]
    intro hmem
    exact absurd (keys_valid_subset hok _ hmem) (by decide)
  cases env with
  | none =>
      rw [(format_params_spec _).2.1, plookup_rename_params_api _ hPapi]
  | some v =>
      have hPapi' :
          plookup (dinsert "api_key" (ParamValue.pstr v) params) "api" = none := by
        rw [plookup_dinsert_ne _ _ (by decide)]
        exact hPapi
      rw [(format_params_spec _).2.1, plookup_rename_params_api _ hPapi',
        plookup_dinsert]

/-- Concrete instantiation of `setup_credential`: the environment value
overrides an explicitly supplied `api_key`. -/
theorem setup_credential_witness :
    ∃ fp, setup_params (some "k") [("api_key", ParamValue.pstr "mine")] =
        .ok fp ∧
      plookup fp "api" = some (ParamValue.pstr "k") :=
  setup_credential (some "k") [("api_key", ParamValue.pstr "mine")] (by decide)

/-- C8: for every accepted parameter mapping, the finalized query always
contains `format` set to the structured form `"json"` and `limit` — 20
exactly when the credential option `api` is present and 5 otherwise —
and every option name it contains belongs to the fixed
recognized/translated vocabulary. -/
theorem setup_format_limit_vocab (env : Option String) (params : Params)
    (hok : verify_params params = none) :
    ∃ fp, setup_params env params = .ok fp ∧
      plookup fp "format" = some (ParamValue.pstr "json") ∧
      plookup fp "limit" =
        some (ParamValue.pint (if (plookup fp "api").isSome then 20 else 5)) ∧
      ∀ key ∈ keys fp, key ∈ VOCAB := by
  refine ⟨_, setup_ok_form env params hok, (format_params_spec _).1, ?_, ?_⟩
  · rw [(format_params_spec _).2.2, (format_params_spec _).2.1]
  · intro key hkey
    rcases mem_keys_format_params hkey with hkey | hkey
    · rcases mem_keys_rename_params hkey with rfl | rfl | rfl | rfl | rfl |
        rfl | ⟨hmem, h1, h2, h3, h4, h5, h6⟩
      · decide
      · decide
      · decide
      · decide
      · decide
      · decide
      · have hkP : key ∈ PARAMS := by
          cases env with
          | none => exact keys_valid_subset hok _ hmem
          | some v =>
              rcases mem_keys_dinsert hmem with rfl | hmem'
              · decide
              · exact keys_valid_subset hok _ hmem'
        exact params_mem_vocab key hkP h1 h2 h3 h4 h5 h6
    · fin_cases hkey <;> decide

/-- Concrete instantiation of `setup_format_limit_vocab`: the empty
mapping finalizes to `format=json`, `limit=5`, all names in the
vocabulary. -/
theorem setup_format_limit_vocab_witness :
    ∃ fp, setup_params none ([] : Params) = .ok fp ∧
      plookup fp "format" = some (ParamValue.pstr "json") ∧
      plookup fp "limit" =
        some (ParamValue.pint (if (plookup fp "api").isSome then 20 else 5)) ∧
      ∀ key ∈ keys fp, key ∈ VOCAB :=
  setup_format_limit_vocab none [] (by decide)

end Pubproxpy
